import Mathlib

/-!
Verification of the scoped-enumeration flag manager in
src/include/enum_flags/enum_flags.h.

The C++ class EnumFlags<Enum> wraps a single unsigned integer (RawType,
the underlying type of the enumeration, of bit-width w).  We embed it as a
structure holding a natural number, parameterized by the bit-width w of
RawType; enumeration values are represented by their underlying raw values
(std::to_underlying).  Fixed-width complement in Remove is modelled as
XOR with the all-ones mask 2 ^ w - 1.  Mutating members that return *this
are modelled as functions returning the receiver's new state.
-/

/-- The flag-set state: the private member RawType flags_. -/
structure EnumFlags (w : Nat) where
  flags : Nat
  deriving DecidableEq

namespace EnumFlags

/-- CreateFlag: static_cast<RawType>(1) << shift. -/
def CreateFlag (shift : Nat) : Nat := 1 <<< shift

/-- Constructor from a raw underlying-type value: flags_ {flags}.
The default constructor is ofRaw w 0 (default argument flags = 0). -/
def ofRaw (w : Nat) (flags : Nat) : EnumFlags w := ⟨flags⟩

/-- Constructor from a single enumeration value: flags_ {std::to_underlying(flag)};
the enumeration value is represented by its underlying raw value. -/
def ofEnum (w : Nat) (flag : Nat) : EnumFlags w := ⟨flag⟩

/-- Clear: flags_ = 0; return *this. -/
def Clear {w : Nat} (_f : EnumFlags w) : EnumFlags w := ⟨0⟩

/-- Remove: flags_ &= ~static_cast<RawType>(flags); return *this.
The fixed-width complement ~x is (2 ^ w - 1) XOR x. -/
def Remove {w : Nat} (f g : EnumFlags w) : EnumFlags w :=
  ⟨f.flags &&& ((2 ^ w - 1) ^^^ g.flags)⟩

/-- Add: flags_ |= static_cast<RawType>(flags); return *this. -/
def Add {w : Nat} (f g : EnumFlags w) : EnumFlags w := ⟨f.flags ||| g.flags⟩

/-- Has: (flags_ & std::to_underlying(flag)) != 0. -/
def Has {w : Nat} (f : EnumFlags w) (flag : Nat) : Bool :=
  (f.flags &&& flag) != 0

/-- HasAll: (flags_ & static_cast<RawType>(flags)) == static_cast<RawType>(flags). -/
def HasAll {w : Nat} (f g : EnumFlags w) : Bool :=
  (f.flags &&& g.flags) == g.flags

/-- HasAny(flags): (flags_ & static_cast<RawType>(flags)) != 0. -/
def HasAny {w : Nat} (f g : EnumFlags w) : Bool :=
  (f.flags &&& g.flags) != 0

/-- HasAny(): flags_ != 0. -/
def HasAnySet {w : Nat} (f : EnumFlags w) : Bool := f.flags != 0

/-- operator& on a single enumeration value: same as Has. -/
def andEnum {w : Nat} (f : EnumFlags w) (flag : Nat) : Bool := f.Has flag

/-- operator& on a flag set: same as HasAll. -/
def andFlags {w : Nat} (f g : EnumFlags w) : Bool := f.HasAll g

/-- operator&=: flags_ = flags; return *this — the receiver's state after
the call, a full overwrite of the old value. -/
def andAssign {w : Nat} (_f g : EnumFlags w) : EnumFlags w := ⟨g.flags⟩

/-- operator|: return EnumFlags {*this}.Add(flags) — a copy of the receiver
is made and Add is applied to the copy; the receiver is never written.
The pair is (returned new flag set, receiver state after the call). -/
def orOp {w : Nat} (f g : EnumFlags w) : EnumFlags w × EnumFlags w :=
  ((ofRaw w f.flags).Add g, f)

/-- operator|=: return Add(flags). -/
def orAssign {w : Nat} (f g : EnumFlags w) : EnumFlags w := f.Add g

/-- operator RawType: return flags_. -/
def toRaw {w : Nat} (f : EnumFlags w) : Nat := f.flags

/-- AddFlags: std::ranges::for_each(flags, [this](flag) { Add(flag); });
each element is an enumeration value, converted to EnumFlags by the
single-value constructor before Add.  A finite range is modelled as a list
of underlying raw values. -/
def AddFlags {w : Nat} (f : EnumFlags w) (l : List Nat) : EnumFlags w :=
  l.foldl (fun acc e => acc.Add (ofEnum w e)) f

/-- Constructor from an initializer list or range of enumeration values:
the member initializer flags_ {0} followed by AddFlags(flags). -/
def ofList (w : Nat) (l : List Nat) : EnumFlags w :=
  AddFlags (ofRaw w 0) l

/-! ### Helper lemmas on bits -/

theorem eq_of_flags_eq {w : Nat} {f g : EnumFlags w} (h : f.flags = g.flags) :
    f = g := by
  cases f; cases g; simpa using h

theorem exists_testBit_of_ne_zero {n : Nat} (h : n ≠ 0) :
    ∃ i, n.testBit i = true := by
  by_contra hc
  push_neg at hc
  refine h (Nat.eq_of_testBit_eq fun i => ?_)
  simp only [Nat.zero_testBit]
  simpa using hc i

theorem ne_zero_of_testBit {n i : Nat} (h : n.testBit i = true) : n ≠ 0 := by
  intro h0
  rw [h0, Nat.zero_testBit] at h
  exact Bool.false_ne_true h

theorem land_ne_zero_iff (a b : Nat) :
    a &&& b ≠ 0 ↔ ∃ i, a.testBit i = true ∧ b.testBit i = true := by
  constructor
  · intro h
    obtain ⟨i, hi⟩ := exists_testBit_of_ne_zero h
    rw [Nat.testBit_land] at hi
    exact ⟨i, Bool.and_eq_true_iff.mp hi⟩
  · rintro ⟨i, ha, hb⟩
    refine ne_zero_of_testBit (i := i) ?_
    rw [Nat.testBit_land, ha, hb]
    decide

theorem land_eq_right_iff (a b : Nat) :
    a &&& b = b ↔ ∀ i, b.testBit i = true → a.testBit i = true := by
  constructor
  · intro h i hb
    have hcongr : (a &&& b).testBit i = b.testBit i := by rw [h]
    rw [Nat.testBit_land, hb] at hcongr
    simpa using hcongr
  · intro h
    refine Nat.eq_of_testBit_eq fun i => ?_
    rw [Nat.testBit_land]
    cases hb : b.testBit i with
    | false => simp
    | true => simp [h i hb]

theorem two_pow_testBit_iff (k i : Nat) : (2 ^ k).testBit i = true ↔ k = i := by
  constructor
  · intro h
    by_contra hne
    rw [Nat.testBit_two_pow_of_ne hne] at h
    exact Bool.false_ne_true h
  · rintro rfl
    exact Nat.testBit_two_pow_self

theorem testBit_eq_false_of_ge {x w i : Nat} (hx : x < 2 ^ w) (hi : w ≤ i) :
    x.testBit i = false :=
  Nat.testBit_eq_false_of_lt
    (lt_of_lt_of_le hx (Nat.pow_le_pow_right (by decide) hi))

theorem mask_testBit (w i : Nat) : (2 ^ w - 1).testBit i = decide (i < w) := by
  by_cases h : i < w <;> simp [Nat.testBit_two_pow_sub_one, h]

theorem AddFlags_testBit {w : Nat} (l : List Nat) (f : EnumFlags w) (i : Nat) :
    (AddFlags f l).flags.testBit i
      = (f.flags.testBit i || l.any fun e => e.testBit i) := by
  induction l generalizing f with
  | nil => simp [AddFlags]
  | cons e t ih =>
      show (AddFlags (f.Add (ofEnum w e)) t).flags.testBit i = _
      rw [ih]
      simp [Add, ofEnum, Nat.testBit_lor, Bool.or_assoc]

theorem ofList_testBit (w : Nat) (l : List Nat) (i : Nat) :
    (ofList w l).flags.testBit i = (l.any fun e => e.testBit i) := by
  simp [ofList, AddFlags_testBit, ofRaw, Nat.zero_testBit]

theorem perm_any_eq {l t : List Nat} (h : l.Perm t) (p : Nat → Bool) :
    l.any p = t.any p := by
  rw [Bool.eq_iff_iff, List.any_eq_true, List.any_eq_true]
  exact ⟨fun ⟨x, hx, hp⟩ => ⟨x, h.mem_iff.mp hx, hp⟩,
         fun ⟨x, hx, hp⟩ => ⟨x, h.mem_iff.mpr hx, hp⟩⟩

/-! ### Claims -/

/-- Claim C1, as stated, is false on the code: Has uses
(flags_ & to_underlying(flag)) != 0, so for the multi-bit value 3 checked
against the receiver with raw value 1, Has returns true although bit 1 of
the value is not set in the receiver. -/
theorem C1_counterexample :
    ¬ (((ofRaw 32 1).Has 3 = true)
        ↔ (∀ i, (3 : Nat).testBit i = true → (1 : Nat).testBit i = true)) := by
  intro h
  exact absurd (h.mp (by decide) 1 (by decide)) (by decide)

/-- Claim C1 (amended): Has(v) returns true iff at least one bit set in
the underlying value of v is also set in the receiver's raw value. -/
theorem C1_Has_iff_some_shared_bit (w : Nat) (f : EnumFlags w) (v : Nat) :
    f.Has v = true ↔ ∃ i, v.testBit i = true ∧ f.flags.testBit i = true := by
  simp only [Has, bne_iff_ne]
  rw [land_ne_zero_iff]
  exact ⟨fun ⟨i, hf, hv⟩ => ⟨i, hv, hf⟩, fun ⟨i, hv, hf⟩ => ⟨i, hf, hv⟩⟩

/-- Claim C2: operator&= replaces the receiver's raw value entirely by the
argument's raw value — a full overwrite, which is neither a bitwise
intersection nor a union of the two raw values in general. -/
theorem C2_andAssign_overwrites :
    (∀ (w : Nat) (f g : EnumFlags w), f.andAssign g = ⟨g.flags⟩)
    ∧ ¬ (∀ (w : Nat) (f g : EnumFlags w),
          (f.andAssign g).flags = f.flags &&& g.flags)
    ∧ ¬ (∀ (w : Nat) (f g : EnumFlags w),
          (f.andAssign g).flags = f.flags ||| g.flags) := by
  refine ⟨fun w f g => rfl, fun h => ?_, fun h => ?_⟩
  · have := h 8 ⟨1⟩ ⟨2⟩
    simp [andAssign] at this
  · have := h 8 ⟨1⟩ ⟨2⟩
    simp [andAssign] at this

/-- Claim C4: HasAll(G) is true iff every bit set in G is also set in the
receiver, and the empty argument (raw value 0) yields true. -/
theorem C4_HasAll_iff (w : Nat) (f g : EnumFlags w) :
    (f.HasAll g = true
      ↔ ∀ i, g.flags.testBit i = true → f.flags.testBit i = true)
    ∧ f.HasAll (ofRaw w 0) = true := by
  constructor
  · simp only [HasAll, beq_iff_eq]
    exact land_eq_right_iff f.flags g.flags
  · simp [HasAll, ofRaw]

/-- Claim C5: HasAny(G) is true iff at least one bit set in G is also set
in the receiver, and the empty argument (raw value 0) yields false. -/
theorem C5_HasAny_iff (w : Nat) (f g : EnumFlags w) :
    (f.HasAny g = true
      ↔ ∃ i, g.flags.testBit i = true ∧ f.flags.testBit i = true)
    ∧ f.HasAny (ofRaw w 0) = false := by
  constructor
  · simp only [HasAny, bne_iff_ne]
    rw [land_ne_zero_iff]
    exact ⟨fun ⟨i, hf, hg⟩ => ⟨i, hg, hf⟩, fun ⟨i, hg, hf⟩ => ⟨i, hf, hg⟩⟩
  · simp [HasAny, ofRaw]

/-- Claim C8: for every shift k strictly below the bit-width w, CreateFlag
returns 1 << k, i.e. 2 ^ k, and that value is representable in the
underlying unsigned type (it is below 2 ^ w). -/
theorem C8_CreateFlag (w k : Nat) (hk : k < w) :
    CreateFlag k = 2 ^ k ∧ CreateFlag k < 2 ^ w := by
  refine ⟨Nat.one_shiftLeft k, ?_⟩
  show 1 <<< k < 2 ^ w
  rw [Nat.one_shiftLeft]
  exact Nat.pow_lt_pow_right (by decide) hk

/-- Witness for C8 at w = 32, k = 4. -/
theorem C8_CreateFlag_witness :
    4 < 32 ∧ (CreateFlag 4 = 2 ^ 4 ∧ CreateFlag 4 < 2 ^ 32) :=
  ⟨by decide, C8_CreateFlag 32 4 (by decide)⟩

/-- Claim C9: constructing a flag set from a raw value r of the underlying
type and converting back yields r, and a default-constructed flag set
(raw constructor with its default argument 0) converts to 0. -/
theorem C9_raw_roundtrip (w r : Nat) (_hr : r < 2 ^ w) :
    (ofRaw w r).toRaw = r ∧ (ofRaw w 0).toRaw = 0 :=
  ⟨rfl, rfl⟩

/-- Witness for C9 at w = 32, r = 12345. -/
theorem C9_raw_roundtrip_witness :
    12345 < 2 ^ 32
    ∧ ((ofRaw 32 12345).toRaw = 12345 ∧ (ofRaw 32 0).toRaw = 0) :=
  ⟨by decide, C9_raw_roundtrip 32 12345 (by decide)⟩

/-- Claim C3: constructing a flag set from a finite collection S of
single-bit enumeration values is the bitwise union of the elements: Has(v)
is true iff v is an element of S, the result is independent of element
order, and repeating an element has no observable effect. -/
theorem C3_ofList_union (w : Nat) (S : List Nat) (v : Nat)
    (hS : ∀ e ∈ S, ∃ k, e = 2 ^ k) (hv : ∃ k, v = 2 ^ k) :
    ((ofList w S).Has v = true ↔ v ∈ S)
    ∧ (∀ T : List Nat, S.Perm T → ofList w S = ofList w T)
    ∧ (∀ e ∈ S, ofList w (e :: S) = ofList w S) := by
  obtain ⟨k, rfl⟩ := hv
  refine ⟨⟨?_, ?_⟩, ?_, ?_⟩
  · intro h
    have hne : (ofList w S).flags &&& 2 ^ k ≠ 0 := by simpa [Has] using h
    obtain ⟨i, hfi, hvi⟩ := (land_ne_zero_iff _ _).mp hne
    obtain rfl := (two_pow_testBit_iff k i).mp hvi
    rw [ofList_testBit] at hfi
    obtain ⟨e, heS, hei⟩ := List.any_eq_true.mp hfi
    obtain ⟨j, rfl⟩ := hS e heS
    obtain rfl := (two_pow_testBit_iff j k).mp hei
    exact heS
  · intro hmem
    simp only [Has, bne_iff_ne]
    refine ne_zero_of_testBit (i := k) ?_
    rw [Nat.testBit_land, ofList_testBit]
    have hany : (S.any fun e => e.testBit k) = true :=
      List.any_eq_true.mpr ⟨2 ^ k, hmem, Nat.testBit_two_pow_self⟩
    rw [hany, Nat.testBit_two_pow_self]
    decide
  · intro T hperm
    refine eq_of_flags_eq (Nat.eq_of_testBit_eq fun i => ?_)
    rw [ofList_testBit, ofList_testBit]
    exact perm_any_eq hperm _
  · intro e heS
    refine eq_of_flags_eq (Nat.eq_of_testBit_eq fun i => ?_)
    rw [ofList_testBit, ofList_testBit, List.any_cons]
    cases he : e.testBit i
    · simp
    · have hany : (S.any fun x => x.testBit i) = true :=
        List.any_eq_true.mpr ⟨e, heS, he⟩
      simp [hany]

/-- Witness for C3 at w = 32, S = the list 1, 2, 1 (with a repeated
element), v = 2. -/
theorem C3_ofList_union_witness :
    ((∀ e ∈ ([1, 2, 1] : List Nat), ∃ k, e = 2 ^ k)
      ∧ (∃ k, (2 : Nat) = 2 ^ k))
    ∧ (((ofList 32 [1, 2, 1]).Has 2 = true ↔ (2 : Nat) ∈ [1, 2, 1])
      ∧ (∀ T : List Nat, ([1, 2, 1] : List Nat).Perm T
          → ofList 32 [1, 2, 1] = ofList 32 T)
      ∧ (∀ e ∈ ([1, 2, 1] : List Nat),
          ofList 32 (e :: [1, 2, 1]) = ofList 32 [1, 2, 1])) := by
  have hS : ∀ e ∈ ([1, 2, 1] : List Nat), ∃ k, e = 2 ^ k := by
    intro e he
    simp only [List.mem_cons, List.not_mem_nil, or_false] at he
    rcases he with rfl | rfl | rfl
    · exact ⟨0, rfl⟩
    · exact ⟨1, rfl⟩
    · exact ⟨0, rfl⟩
  exact ⟨⟨hS, ⟨1, rfl⟩⟩, C3_ofList_union 32 [1, 2, 1] 2 hS ⟨1, rfl⟩⟩

/-- Claim C6: for a single-bit flag value v representable in the
underlying type, adding v makes Has(v) true, adding then removing v makes
Has(v) false, and removing v from a set that does not have it leaves the
set unchanged. -/
theorem C6_add_remove (w : Nat) (f : EnumFlags w) (v k : Nat)
    (hk : k < w) (hv : v = 2 ^ k) (hf : f.flags < 2 ^ w) :
    (f.Add (ofEnum w v)).Has v = true
    ∧ ((f.Add (ofEnum w v)).Remove (ofEnum w v)).Has v = false
    ∧ (f.Has v = false → f.Remove (ofEnum w v) = f) := by
  subst hv
  refine ⟨?_, ?_, ?_⟩
  · simp only [Has, Add, ofEnum, bne_iff_ne]
    refine ne_zero_of_testBit (i := k) ?_
    rw [Nat.testBit_land, Nat.testBit_lor, Nat.testBit_two_pow_self]
    simp
  · simp only [Has, Add, Remove, ofEnum, bne_eq_false_iff_eq]
    refine Nat.eq_of_testBit_eq fun i => ?_
    rw [Nat.zero_testBit, Nat.testBit_land, Nat.testBit_land, Nat.testBit_xor,
      mask_testBit]
    by_cases hik : k = i
    · subst hik
      simp [hk, Nat.testBit_two_pow_self]
    · rw [Nat.testBit_two_pow_of_ne hik]
      simp
  · intro hnot
    have h0 : f.flags &&& 2 ^ k = 0 := by simpa [Has] using hnot
    refine eq_of_flags_eq ?_
    show f.flags &&& ((2 ^ w - 1) ^^^ 2 ^ k) = f.flags
    refine Nat.eq_of_testBit_eq fun i => ?_
    rw [Nat.testBit_land, Nat.testBit_xor, mask_testBit]
    by_cases hiw : i < w
    · simp only [hiw, decide_True]
      by_cases hik : k = i
      · subst hik
        have hfk : f.flags.testBit k = false := by
          cases hb : f.flags.testBit k
          · rfl
          · exact absurd h0 ((land_ne_zero_iff _ _).mpr
              ⟨k, hb, Nat.testBit_two_pow_self⟩)
        simp [hfk]
      · rw [Nat.testBit_two_pow_of_ne hik]
        simp
    · have hfi : f.flags.testBit i = false :=
        testBit_eq_false_of_ge hf (le_of_not_lt hiw)
      simp [hfi]

/-- Witness for C6 at w = 32, f with raw value 5, v = 2 = 2 ^ 1. -/
theorem C6_add_remove_witness :
    (1 < 32 ∧ (2 : Nat) = 2 ^ 1 ∧ (ofRaw 32 5).flags < 2 ^ 32)
    ∧ (((ofRaw 32 5).Add (ofEnum 32 2)).Has 2 = true
      ∧ (((ofRaw 32 5).Add (ofEnum 32 2)).Remove (ofEnum 32 2)).Has 2 = false
      ∧ ((ofRaw 32 5).Has 2 = false
          → (ofRaw 32 5).Remove (ofEnum 32 2) = ofRaw 32 5)) :=
  ⟨⟨by decide, rfl, by decide⟩,
   C6_add_remove 32 (ofRaw 32 5) 2 1 (by decide) rfl (by decide)⟩

/-- Claim C7: the non-mutating union operator returns a new flag set whose
raw value is the bitwise OR of the receiver's and the argument's raw
values, the receiver is unchanged by the call, and for a nonzero value v
the result of F | v satisfies Has(v) while the receiver's Has(v) keeps its
prior value. -/
theorem C7_orOp (w : Nat) (f g : EnumFlags w) (v : Nat) (hv : v ≠ 0) :
    (f.orOp g).1.flags = f.flags ||| g.flags
    ∧ (f.orOp g).2 = f
    ∧ (f.orOp (ofEnum w v)).1.Has v = true
    ∧ (f.orOp (ofEnum w v)).2.Has v = f.Has v := by
  refine ⟨rfl, rfl, ?_, rfl⟩
  simp only [orOp, Add, ofRaw, ofEnum, Has, bne_iff_ne]
  have hsub : (f.flags ||| v) &&& v = v := by
    refine Nat.eq_of_testBit_eq fun i => ?_
    rw [Nat.testBit_land, Nat.testBit_lor]
    cases hvi : v.testBit i <;> simp [hvi]
  rw [hsub]
  exact hv

/-- Witness for C7 at w = 8, f with raw value 1, g with raw value 4,
v = 2. -/
theorem C7_orOp_witness :
    (2 : Nat) ≠ 0
    ∧ (((ofRaw 8 1).orOp (ofRaw 8 4)).1.flags = (ofRaw 8 1).flags ||| (ofRaw 8 4).flags
      ∧ ((ofRaw 8 1).orOp (ofRaw 8 4)).2 = ofRaw 8 1
      ∧ ((ofRaw 8 1).orOp (ofEnum 8 2)).1.Has 2 = true
      ∧ ((ofRaw 8 1).orOp (ofEnum 8 2)).2.Has 2 = (ofRaw 8 1).Has 2) :=
  ⟨by decide, C7_orOp 8 (ofRaw 8 1) (ofRaw 8 4) 2 (by decide)⟩

/-- Claim C10: Remove fully disjoins its argument: for raw values within
the underlying type's range, after Remove(G) the receiver satisfies
HasAny(G) = false, and every bit position not set in G is unchanged. -/
theorem C10_Remove_disjoins (w : Nat) (f g : EnumFlags w)
    (hf : f.flags < 2 ^ w) (hg : g.flags < 2 ^ w) :
    (f.Remove g).HasAny g = false
    ∧ ∀ i, g.flags.testBit i = false →
        (f.Remove g).flags.testBit i = f.flags.testBit i := by
  constructor
  · simp only [HasAny, Remove, bne_eq_false_iff_eq]
    refine Nat.eq_of_testBit_eq fun i => ?_
    rw [Nat.zero_testBit, Nat.testBit_land, Nat.testBit_land, Nat.testBit_xor,
      mask_testBit]
    cases hgi : g.flags.testBit i
    · simp
    · have hiw : i < w := by
        by_contra hge
        rw [testBit_eq_false_of_ge hg (le_of_not_lt hge)] at hgi
        exact Bool.false_ne_true hgi
      simp [hiw]
  · intro i hgi
    simp only [Remove]
    rw [Nat.testBit_land, Nat.testBit_xor, mask_testBit, hgi]
    by_cases hiw : i < w
    · simp [hiw]
    · have hfi : f.flags.testBit i = false :=
        testBit_eq_false_of_ge hf (le_of_not_lt hiw)
      simp [hfi]

/-- Witness for C10 at w = 32, f with raw value 7, g with raw value 5. -/
theorem C10_Remove_disjoins_witness :
    ((ofRaw 32 7).flags < 2 ^ 32 ∧ (ofRaw 32 5).flags < 2 ^ 32)
    ∧ (((ofRaw 32 7).Remove (ofRaw 32 5)).HasAny (ofRaw 32 5) = false
      ∧ ∀ i, (ofRaw 32 5).flags.testBit i = false →
          ((ofRaw 32 7).Remove (ofRaw 32 5)).flags.testBit i
            = (ofRaw 32 7).flags.testBit i) :=
  ⟨⟨by decide, by decide⟩,
   C10_Remove_disjoins 32 (ofRaw 32 7) (ofRaw 32 5) (by decide) (by decide)⟩

end EnumFlags
